import Mathlib

/-!
Verification development for the `vite-plugin-zip` plugin
(`src/index.ts`): a shallow embedding of its data model and of the
`vitePluginZip` / `zipOutput` / `formatFileSize` functions, together with
theorems settling the specification's claims.

Modelling conventions:
* Filesystem paths are lists of segments (`Path`); `path.join` is list
  append and `path.relative cwd p` is `p.drop cwd.length` (all paths the
  code builds are under `cwd`).
* The glob primitive (an external collaborator per the spec) is modelled
  per its contract: an entry matches when its `cwd`-relative path matches
  some include pattern and no exclude pattern.  Patterns are `/`-separated
  segments, `**` matching any number of segments and `*` inside a segment
  matching any run of characters.  Directory pruning by exclude patterns
  is not modelled (it only removes additional entries and no claim
  depends on it).
* `zipOutput` is embedded as a function from the resolved options, the
  Vite config and the filesystem to the trace of effect events it
  performs, in source order; the archive engine's semantics turns the
  trace into the final list of archive entries.
* JS numbers are modelled as exact rationals: every arithmetic step
  `formatFileSize` performs (division by the power of two 1024) is exact
  on IEEE doubles in the relevant range.
-/

namespace VPZip

/-- A filesystem path, as its list of segments (`path.join` = append). -/
abbrev Path := List String

/-- One filesystem node: its absolute path, whether it is a plain file
(`false` = directory or other non-file node), and its content. -/
structure FSFile where
  path : Path
  isFile : Bool
  content : String
deriving DecidableEq

/-- The filesystem: a list of nodes. -/
abbrev FileSystem := List FSFile

/-- Effect of `fs.createWriteStream p`: any previous node at `p` is
truncated away and an empty plain file is created at `p`. -/
def createFile (fs : FileSystem) (p : Path) : FileSystem :=
  fs.filter (fun f => f.path ≠ p) ++ [⟨p, true, ""⟩]

/-- A `node:fs` `Dirent`, as consumed by `zipOutput`: entry name, absolute
parent path, and the `isFile()` predicate's value. -/
structure Dirent where
  name : String
  parentPath : Path
  isFile : Bool
deriving DecidableEq

/-- The full path `path.join(dirEnt.parentPath, dirEnt.name)`. -/
def direntPath (d : Dirent) : Path := d.parentPath ++ [d.name]

/-- Split a character list at `/` separators (glob patterns are written
with forward slashes). -/
def splitOnSlash : List Char → List Char → List String
  | [], cur => [String.mk cur.reverse]
  | '/' :: rest, cur => String.mk cur.reverse :: splitOnSlash rest []
  | c :: rest, cur => splitOnSlash rest (c :: cur)

/-- One segment of a glob pattern: `**` (any number of segments) or a
literal segment possibly containing `*` wildcards. -/
inductive GlobSeg where
  | globstar
  | seg (s : String)
deriving DecidableEq

/-- Parse a glob pattern string into its segments. -/
def parseGlob (p : String) : List GlobSeg :=
  (splitOnSlash p.data []).map (fun s => if s = "**" then .globstar else .seg s)

/-- Match one pattern segment (with `*` wildcards) against one path
segment, character by character; `*` matches any run of characters. -/
def segMatch : List Char → List Char → Bool
  | [], cs => cs.isEmpty
  | '*' :: ps, cs => cs.tails.any (fun t => segMatch ps t)
  | _ :: _, [] => false
  | p :: ps, c :: cs => (p == c) && segMatch ps cs

/-- Match a segmented glob pattern against a relative path; `**` matches
any (possibly empty) run of whole segments. -/
def globSegs : List GlobSeg → List String → Bool
  | [], ts => ts.isEmpty
  | .globstar :: ps, ts => ts.tails.any (fun t => globSegs ps t)
  | .seg _ :: _, [] => false
  | .seg p :: ps, t :: ts => segMatch p.data t.data && globSegs ps ts

/-- Match a glob pattern string against a `cwd`-relative path. -/
def globMatch (pattern : String) (rel : List String) : Bool :=
  globSegs (parseGlob pattern) rel

/-- A path matches a pattern list when it matches any one pattern. -/
def matchesAny (pats : List String) (rel : List String) : Bool :=
  pats.any (fun p => globMatch p rel)

example : globMatch "dist/**/*" ["dist", "index.html"] = true := by decide
example : globMatch "dist/**/*" ["dist", "assets", "logo.svg"] = true := by decide
example : globMatch "dist/**/*" ["dist"] = false := by decide
example : globMatch "dist/**/*" ["build", "app.js"] = false := by decide
example : globMatch "dist/**/*.svg" ["dist", "assets", "logo.svg"] = true := by decide
example : globMatch "dist/**/*.svg" ["dist", "app.js"] = false := by decide

/-- An insertion call on the `archiver` handle: `archive.file(src, {name})`,
`archive.directory(src, destName)`, or `archive.append(content, {name})`.
Entry names are archive-internal paths, kept as segment lists (directory
separators preserved). -/
inductive ArchiveAction where
  | file (src : Path) (name : Path)
  | directory (src : Path) (destName : String)
  | append (content : String) (name : Path)
deriving DecidableEq

/-- One observable effect event of a `zipOutput` run, in program order. -/
inductive Event where
  | openStream (p : Path)
  | globEnumerate
  | callHandleFile (d : Dirent)
  | action (a : ArchiveAction)
  | callBeforeClose
  | finalize
deriving DecidableEq

/-- First plain file at path `p` (what the archive engine reads on
`archive.file`). -/
def findFile (fs : FileSystem) (p : Path) : Option FSFile :=
  fs.find? (fun f => f.path == p && f.isFile)

/-- All plain files strictly below directory `dir`. -/
def filesUnder (fs : FileSystem) (dir : Path) : List FSFile :=
  fs.filter (fun f => f.isFile && dir.isPrefixOf f.path && dir.length < f.path.length)

/-- Archive-engine semantics of one insertion call, as (name, content)
entries: `file` reads the file at `src` (a vanished file is skipped, the
ENOENT-warning case), `directory` recursively adds every file under `src`
re-rooted at `destName`, `append` adds literal content. -/
def entriesOfAction (fs : FileSystem) : ArchiveAction → List (Path × String)
  | .file src name =>
    match findFile fs src with
    | some f => [(name, f.content)]
    | none => []
  | .directory src destName =>
    (filesUnder fs src).map (fun f => (destName :: f.path.drop src.length, f.content))
  | .append content name => [(name, content)]

/-- The archive produced by a trace: entries of all insertion calls, in
order. -/
def archiveEntries (fs : FileSystem) (trace : List Event) : List (Path × String) :=
  trace.flatMap (fun e =>
    match e with
    | .action a => entriesOfAction fs a
    | _ => [])

/-- A `string[] | string` typed option field. -/
inductive StrOrList where
  | str (s : String)
  | list (l : List String)
deriving DecidableEq

/-- The glob patterns denoted by an include field (`fs.globSync` accepts
a single pattern or a pattern array). -/
def includePatterns : StrOrList → List String
  | .str s => [s]
  | .list l => l

/-- The test `Array.isArray(exclude) && exclude.length === 0`. -/
def isEmptyArray : StrOrList → Bool
  | .str _ => false
  | .list l => l.isEmpty

/-- The `handleFile` hook: given the entry's `Dirent` it may perform
insertion calls on the archive handle and returns whether the entry was
handled (the archive handle itself carries no readable state, so the
hook is modelled by the calls it makes and its return value). -/
abbrev HandleFile := Dirent → List ArchiveAction × Bool

/-- The resolved plugin options (`ResolvedOptions` in the source);
`beforeClose` is modelled by the insertion calls the hook makes on the
archive handle. -/
structure ResolvedOptions where
  include_ : StrOrList
  exclude : StrOrList
  zipName : String
  silent : Bool
  handleFile : Option HandleFile
  beforeClose : List ArchiveAction

/-- The user options (`UserOptions` in the source): every field optional. -/
structure UserOptions where
  include_ : Option StrOrList := none
  exclude : Option StrOrList := none
  zipName : Option String := none
  silent : Option Bool := none
  handleFile : Option HandleFile := none
  beforeClose : Option (List ArchiveAction) := none

/-- Option resolution performed by `vitePluginZip` (each field via `??`). -/
def resolveOptions (u : UserOptions) : ResolvedOptions where
  include_ := u.include_.getD (.str "dist/**/*")
  zipName := u.zipName.getD "dist.zip"
  exclude := u.exclude.getD (.list [])
  silent := u.silent.getD false
  handleFile := u.handleFile
  beforeClose := u.beforeClose.getD []

/-- The build context consumed from the resolved Vite config: `root` and
`build.outDir`. -/
structure ViteConfig where
  root : Path
  outDir : Path

/-- The `node:fs` call `globSync(include, { cwd, exclude, withFileTypes: true })`,
per its contract: dirents of the nodes under `cwd` whose relative path
matches some include pattern and no exclude pattern (a dirent names its
node, so only nodes with a nonempty path are representable). -/
def globSync (inc : StrOrList) (cwd : Path) (excl : List String) (fs : FileSystem) :
    List Dirent :=
  (fs.filter (fun f =>
    !f.path.isEmpty
    && cwd.isPrefixOf f.path
    && matchesAny (includePatterns inc) (f.path.drop cwd.length)
    && !matchesAny excl (f.path.drop cwd.length))).map
    (fun f => ⟨f.path.getLastD "", f.path.dropLast, f.isFile⟩)

/-- The fast-path condition tested by `zipOutput`:
`include === "dist/**/*" && Array.isArray(exclude) && exclude.length === 0
&& handleFile === null`. -/
def takesFastPath (opts : ResolvedOptions) : Bool :=
  opts.include_ == .str "dist/**/*" && isEmptyArray opts.exclude && opts.handleFile.isNone

/-- The conversion `Array.isArray(exclude) ? exclude : [exclude]` (which
`zipOutput` applies before enumeration). -/
def excludeArrOf : StrOrList → List String
  | .list l => l
  | .str s => [s]

/-- The loop body of `zipOutput`'s general path for one dirent: non-files
are skipped; a configured `handleFile` hook runs first and, when it
returns `true`, suppresses the default insertion; the default insertion
is `archive.file(filePath, { name: path.relative(cwd, filePath) })`. -/
def processEntry (opts : ResolvedOptions) (cwd : Path) (d : Dirent) : List Event :=
  if !d.isFile then []
  else
    match opts.handleFile with
    | some h =>
      .callHandleFile d :: (h d).1.map .action
        ++ (if (h d).2 then []
            else [.action (.file (direntPath d) ((direntPath d).drop cwd.length))])
    | none => [.action (.file (direntPath d) ((direntPath d).drop cwd.length))]

/-- The event trace of `zipOutput(pluginOptions, viteConfig)` on a given
filesystem: open the destination stream at `outputDir/zipName`, then
either the fast path (whole output directory as one recursive entry named
"dist") or the general path (glob enumeration plus the per-entry loop),
then the `beforeClose` hook and `archive.finalize()`. -/
def zipOutput (opts : ResolvedOptions) (cfg : ViteConfig) (fs : FileSystem) : List Event :=
  let cwd := cfg.root
  let distDir := cwd ++ cfg.outDir
  let zipOutFile := distDir ++ [opts.zipName]
  let fsOpen := createFile fs zipOutFile
  if takesFastPath opts then
    [Event.openStream zipOutFile, .action (.directory distDir "dist"), .callBeforeClose]
      ++ opts.beforeClose.map .action ++ [.finalize]
  else
    let excludeArr := excludeArrOf opts.exclude
    let allFiles := globSync opts.include_ cwd excludeArr fsOpen
    [Event.openStream zipOutFile, .globEnumerate]
      ++ allFiles.flatMap (processEntry opts cwd)
      ++ [.callBeforeClose] ++ opts.beforeClose.map .action ++ [.finalize]

/-- The `closeBundle.handler(error?)` hook: on an error it returns at
once, otherwise it runs `zipOutput`. -/
def closeBundleHandler (opts : ResolvedOptions) (cfg : ViteConfig) (fs : FileSystem)
    (error : Option String) : List Event :=
  match error with
  | some _ => []
  | none => zipOutput opts cfg fs

/-- The archive file finally produced by a `zipOutput` run: the entries of
its trace, with file reads against the filesystem as it stands after the
destination stream was opened. -/
def finalArchive (opts : ResolvedOptions) (cfg : ViteConfig) (fs : FileSystem) :
    List (Path × String) :=
  archiveEntries (createFile fs (cfg.root ++ cfg.outDir ++ [opts.zipName]))
    (zipOutput opts cfg fs)

/-- A notification emitted by the archive engine during assembly. -/
inductive ArchiveNote where
  | warning (code : String)
  | error (code : String)
deriving DecidableEq

/-- Outcome of an archive-engine notification in `zipOutput`'s event
handlers: log-and-continue, or reject the run's deferred result. -/
inductive NoteOutcome where
  | logAndContinue
  | rejectPromise
deriving DecidableEq

/-- The `archive.on("warning")` / `archive.on("error")` handlers: an
ENOENT-classified warning is logged and the run continues; every other
warning, and every error, rejects the promise. -/
def onArchiveNote : ArchiveNote → NoteOutcome
  | .warning code => if code == "ENOENT" then .logAndContinue else .rejectPromise
  | .error _ => .rejectPromise

/-- The unit symbols of `formatFileSize`. -/
def units : List String := ["B", "KB", "MB", "GB", "TB"]

/-- The body of the `while (size >= 1024 && index < units.length - 1)`
loop of `formatFileSize`, with an explicit iteration bound (each
iteration increments `index`, so `units.length - 1 - index` iterations
always suffice; `formatLoop_eq` below recovers the plain loop
recurrence). -/
def formatLoopAux : ℕ → ℚ → ℕ → ℚ × ℕ
  | 0, size, index => (size, index)
  | fuel + 1, size, index =>
    if 1024 ≤ size ∧ index < units.length - 1 then formatLoopAux fuel (size / 1024) (index + 1)
    else (size, index)

/-- The `while (size >= 1024 && index < units.length - 1)` loop of
`formatFileSize`: repeatedly divide by 1024 and advance the unit index. -/
def formatLoop (size : ℚ) (index : ℕ) : ℚ × ℕ :=
  formatLoopAux (units.length - 1 - index) size index

/-- JS `x.toFixed(2)` for a non-negative value: round to the nearest
hundredth (ties away from zero, i.e. upward for non-negative input) and
render with exactly two digits after the decimal point. -/
def toFixed2 (q : ℚ) : String :=
  let cents : ℤ := Int.floor (q * 100 + 1 / 2)
  let ip := cents / 100
  let fp := (cents % 100).toNat
  toString ip ++ "." ++ (if fp < 10 then "0" else "") ++ toString fp

/-- The function `formatFileSize(size)`: scale into the largest fitting unit and render
as `"<value to 2 decimals> <unit>"`. -/
def formatFileSize (size : ℚ) : String :=
  let r := formatLoop size 0
  toFixed2 r.1 ++ " " ++ units.getD r.2 ""

/-- The options resolved from an empty user-options object (the plugin's
default invocation). -/
def defaultOptions : ResolvedOptions := resolveOptions {}

/-- A sample build context: project root `root`, output directory `dist`. -/
def sampleCfg : ViteConfig := ⟨["root"], ["dist"]⟩

/-- A sample build-output filesystem under `root/dist`. -/
def sampleFS : FileSystem :=
  [⟨["root", "dist", "index.html"], true, "<html></html>"⟩,
   ⟨["root", "dist", "app.js"], true, "console"⟩,
   ⟨["root", "dist", "assets"], false, ""⟩,
   ⟨["root", "dist", "assets", "logo.svg"], true, "<svg>"⟩]

/-- A build context whose output directory is named `build`, not `dist`. -/
def cfgBuild : ViteConfig := ⟨["root"], ["build"]⟩

/-- A filesystem for `cfgBuild`: one build artifact under `root/build`. -/
def fsBuild : FileSystem := [⟨["root", "build", "app.js"], true, "console"⟩]

/-- A configuration whose `exclude` matches `dist/logo.svg` but whose
`beforeClose` hook nevertheless inserts that very file. -/
def optsExclHook : ResolvedOptions :=
  { include_ := .str "dist/**/*"
    exclude := .str "dist/**/*.svg"
    zipName := "excluded.zip"
    silent := true
    handleFile := none
    beforeClose := [.file ["root", "dist", "logo.svg"] ["dist", "logo.svg"]] }

/-- A filesystem for `optsExclHook`: an svg next to an html file. -/
def fsExcl : FileSystem :=
  [⟨["root", "dist", "logo.svg"], true, "<svg>"⟩,
   ⟨["root", "dist", "index.html"], true, "<html></html>"⟩]

/-- A configuration whose `handleFile` hook claims every entry as handled
(returning `true` without inserting anything). -/
def optsHandleAll : ResolvedOptions :=
  { include_ := .str "dist/**/*"
    exclude := .list []
    zipName := "dist.zip"
    silent := true
    handleFile := some (fun _ => ([], true))
    beforeClose := [] }

/-- A configuration with an svg-exclude pattern and a configured
`beforeClose` hook that inserts only an unrelated synthetic entry. -/
def optsExclHook2 : ResolvedOptions :=
  { include_ := .str "dist/**/*"
    exclude := .str "dist/**/*.svg"
    zipName := "excluded.zip"
    silent := true
    handleFile := none
    beforeClose := [.append "extra notes" ["notes.txt"]] }

/-- A configuration whose `handleFile` hook is configured but claims
nothing as handled (always returns `false` without inserting anything). -/
def optsHandleFalse : ResolvedOptions :=
  { include_ := .str "dist/**/*"
    exclude := .list []
    zipName := "dist.zip"
    silent := true
    handleFile := some (fun _ => ([], false))
    beforeClose := [] }

/-- The iteration bound in `formatLoop` is faithful: `formatLoop`
satisfies exactly the recurrence of the source's `while` loop. -/
theorem formatLoop_eq (size : ℚ) (index : ℕ) :
    formatLoop size index =
      if 1024 ≤ size ∧ index < units.length - 1 then formatLoop (size / 1024) (index + 1)
      else (size, index) := by
  show formatLoopAux (units.length - 1 - index) size index = _
  rcases Nat.lt_or_ge index (units.length - 1) with h | h
  · obtain ⟨k, hk⟩ : ∃ k, units.length - 1 - index = k + 1 := ⟨units.length - 2 - index, by
      simp only [units, List.length] at h ⊢; omega⟩
    have hk2 : units.length - 1 - (index + 1) = k := by
      simp only [units, List.length] at hk ⊢; omega
    rw [hk, formatLoopAux]
    simp only [formatLoop, hk2]
  · have h0 : units.length - 1 - index = 0 := by omega
    rw [h0, formatLoopAux, if_neg]
    exact fun hc => absurd hc.2 (Nat.not_lt.mpr h)

/-- Evaluation helper for `toFixed2` once the rounded hundredths value is
known. -/
theorem toFixed2_eq (q : ℚ) (c : ℤ) (h : Int.floor (q * 100 + 1 / 2) = c) :
    toFixed2 q =
      toString (c / 100) ++ "." ++ (if (c % 100).toNat < 10 then "0" else "")
        ++ toString (c % 100).toNat := by
  simp only [toFixed2, h]

/-- Value of `formatFileSize(0)`. -/
theorem formatFileSize_zero : formatFileSize 0 = "0.00 B" := by
  have h : formatLoop 0 0 = (0, 0) := by
    rw [formatLoop_eq, if_neg (by norm_num)]
  rw [formatFileSize, h]
  rw [toFixed2_eq 0 0 (by norm_num)]
  decide

/-- The loop result on 1536 bytes. -/
theorem formatLoop_1536 : formatLoop 1536 0 = (3 / 2, 1) := by
  rw [formatLoop_eq, if_pos (by constructor <;> norm_num [units])]
  rw [formatLoop_eq, if_neg (by norm_num)]
  norm_num

/-- Value of `formatFileSize(1536)`. -/
theorem formatFileSize_1536 : formatFileSize 1536 = "1.50 KB" := by
  rw [formatFileSize, formatLoop_1536]
  rw [toFixed2_eq (3 / 2) 150 (by norm_num)]
  decide

/-- Invariants of the size-formatting loop: starting from `index` with
exactly `4 - index` iterations available, the loop divides by 1024 while
the value is at least 1024 and a larger unit exists, so it stops at the
largest unit index `≤ 4` whose scaled value is below 1024 (except at the
top unit, where the value is unbounded). -/
theorem formatLoopAux_spec (fuel : ℕ) : ∀ (size : ℚ) (index : ℕ), index + fuel = 4 →
    (formatLoopAux fuel size index).1 = size / 1024 ^ ((formatLoopAux fuel size index).2 - index)
    ∧ index ≤ (formatLoopAux fuel size index).2
    ∧ (formatLoopAux fuel size index).2 ≤ 4
    ∧ ((formatLoopAux fuel size index).2 < 4 → (formatLoopAux fuel size index).1 < 1024)
    ∧ (index < (formatLoopAux fuel size index).2 →
        1024 ≤ size / 1024 ^ ((formatLoopAux fuel size index).2 - 1 - index)) := by
  have hL : units.length - 1 = 4 := rfl
  induction fuel with
  | zero =>
    intro size index hfuel
    simp only [formatLoopAux]
    exact ⟨by simp, le_refl _, by omega, fun h => absurd h (by omega), fun h => absurd h (by omega)⟩
  | succ k ih =>
    intro size index hfuel
    rw [formatLoopAux]
    by_cases hc : 1024 ≤ size ∧ index < units.length - 1
    · rw [if_pos hc]
      obtain ⟨h1, h2, h3, h4, h5⟩ := ih (size / 1024) (index + 1) (by omega)
      set r := formatLoopAux k (size / 1024) (index + 1) with hr
      have hdiv : ∀ e : ℕ, size / 1024 / 1024 ^ e = size / 1024 ^ (e + 1) := by
        intro e
        rw [div_div, ← pow_succ']
      refine ⟨?_, by omega, h3, h4, ?_⟩
      · have he2 : r.2 - index = (r.2 - (index + 1)) + 1 := by omega
        rw [h1, hdiv, he2]
      · intro _
        rcases Nat.lt_or_ge (index + 1) r.2 with h6 | h6
        · have h7 := h5 h6
          have he2 : r.2 - 1 - index = (r.2 - 1 - (index + 1)) + 1 := by omega
          rw [hdiv] at h7
          rw [he2]
          exact h7
        · have h7 : r.2 - 1 - index = 0 := by omega
          rw [h7, pow_zero, div_one]
          exact hc.1
    · rw [if_neg hc]
      rw [hL] at hc
      refine ⟨by simp, le_refl _, by omega, fun h => ?_, fun h => absurd h (by omega)⟩
      rcases not_and_or.mp hc with h1 | h1
      · simpa using not_le.mp h1
      · omega

/-- Value of `formatFileSize(1024^4)`. -/
theorem formatFileSize_tb : formatFileSize (1024 ^ 4) = "1.00 TB" := by
  have e1 : ((1024 : ℚ) ^ 4) / 1024 = 1024 ^ 3 := by norm_num
  have e2 : ((1024 : ℚ) ^ 3) / 1024 = 1024 ^ 2 := by norm_num
  have e3 : ((1024 : ℚ) ^ 2) / 1024 = 1024 := by norm_num
  have e4 : (1024 : ℚ) / 1024 = 1 := by norm_num
  have h : formatLoop (1024 ^ 4) 0 = (1, 4) := by
    rw [formatLoop_eq, if_pos (by constructor <;> norm_num [units]), e1]
    rw [formatLoop_eq, if_pos (by constructor <;> norm_num [units]), e2]
    rw [formatLoop_eq, if_pos (by constructor <;> norm_num [units]), e3]
    rw [formatLoop_eq, if_pos (by constructor <;> norm_num [units]), e4]
    rw [formatLoop_eq, if_neg (by norm_num [units])]
  rw [formatFileSize, h]
  rw [toFixed2_eq 1 100 (by norm_num)]
  decide

/-- Value of `formatFileSize(1024^4 * 9999)` ends in the TB unit symbol. -/
theorem formatFileSize_huge : ∃ s, formatFileSize (1024 ^ 4 * 9999) = s ++ "TB" := by
  have e1 : ((1024 : ℚ) ^ 4 * 9999) / 1024 = 1024 ^ 3 * 9999 := by norm_num
  have e2 : ((1024 : ℚ) ^ 3 * 9999) / 1024 = 1024 ^ 2 * 9999 := by norm_num
  have e3 : ((1024 : ℚ) ^ 2 * 9999) / 1024 = 1024 * 9999 := by norm_num
  have e4 : ((1024 : ℚ) * 9999) / 1024 = 9999 := by norm_num
  have h : formatLoop (1024 ^ 4 * 9999) 0 = (9999, 4) := by
    rw [formatLoop_eq, if_pos (by constructor <;> norm_num [units]), e1]
    rw [formatLoop_eq, if_pos (by constructor <;> norm_num [units]), e2]
    rw [formatLoop_eq, if_pos (by constructor <;> norm_num [units]), e3]
    rw [formatLoop_eq, if_pos (by constructor <;> norm_num [units]), e4]
    rw [formatLoop_eq, if_neg (by norm_num [units])]
  refine ⟨"9999.00 ", ?_⟩
  rw [formatFileSize, h]
  rw [toFixed2_eq 9999 999900 (by norm_num)]
  decide

/-- The rendered string of `toFixed2` always has the shape
`<integer part>.<exactly two digits>`. -/
theorem toFixed2_shape (q : ℚ) : ∃ a b, toFixed2 q = a ++ "." ++ b ∧ b.length = 2 := by
  refine ⟨toString (Int.floor (q * 100 + 1 / 2) / 100),
    (if (Int.floor (q * 100 + 1 / 2) % 100).toNat < 10 then "0" else "")
      ++ toString (Int.floor (q * 100 + 1 / 2) % 100).toNat, ?_, ?_⟩
  · simp only [toFixed2, String.append_assoc]
  · have h0 : (0 : ℤ) ≤ Int.floor (q * 100 + 1 / 2) % 100 := Int.emod_nonneg _ (by norm_num)
    have h1 : Int.floor (q * 100 + 1 / 2) % 100 < 100 := Int.emod_lt_of_pos _ (by norm_num)
    have h2 : (Int.floor (q * 100 + 1 / 2) % 100).toNat < 100 := by omega
    have key : ∀ m, m < 100 → ((if m < 10 then "0" else "") ++ toString m).length = 2 := by decide
    exact key _ h2

/-- C7: for every non-negative byte count `n`, `formatFileSize` (a total,
hence deterministic and never-failing, function) scales `n` by repeated
division by 1024 to the largest unit index `≤ 4` (units B, KB, MB, GB,
TB) whose scaled value is below 1024 — except at TB, where the value is
unbounded — and renders the scaled value with exactly two decimal places,
a single space, and the unit symbol; and the cited concrete values
evaluate as claimed. -/
theorem C7_formatFileSize :
    (∀ n : ℕ,
      (formatLoop (n : ℚ) 0).1 = (n : ℚ) / 1024 ^ (formatLoop (n : ℚ) 0).2
      ∧ (formatLoop (n : ℚ) 0).2 ≤ 4
      ∧ ((formatLoop (n : ℚ) 0).2 < 4 → (formatLoop (n : ℚ) 0).1 < 1024)
      ∧ (0 < (formatLoop (n : ℚ) 0).2 →
          1024 ≤ (n : ℚ) / 1024 ^ ((formatLoop (n : ℚ) 0).2 - 1))
      ∧ formatFileSize (n : ℚ)
          = toFixed2 ((n : ℚ) / 1024 ^ (formatLoop (n : ℚ) 0).2) ++ " "
            ++ units.getD (formatLoop (n : ℚ) 0).2 ""
      ∧ ∃ a b, formatFileSize (n : ℚ)
          = a ++ "." ++ b ++ " " ++ units.getD (formatLoop (n : ℚ) 0).2 "" ∧ b.length = 2)
    ∧ formatFileSize 0 = "0.00 B"
    ∧ formatFileSize 1536 = "1.50 KB"
    ∧ formatFileSize (1024 ^ 4) = "1.00 TB"
    ∧ (∃ s, formatFileSize (1024 ^ 4 * 9999) = s ++ "TB") := by
  refine ⟨fun n => ?_, formatFileSize_zero, formatFileSize_1536, formatFileSize_tb,
    formatFileSize_huge⟩
  obtain ⟨h1, _, h3, h4, h5⟩ := formatLoopAux_spec 4 (n : ℚ) 0 rfl
  have hdef : formatLoopAux 4 (n : ℚ) 0 = formatLoop (n : ℚ) 0 := rfl
  rw [hdef] at h1 h3 h4 h5
  simp only [Nat.sub_zero] at h1 h5
  refine ⟨h1, h3, h4, h5, ?_, ?_⟩
  · show toFixed2 (formatLoop (n : ℚ) 0).1 ++ " " ++ units.getD (formatLoop (n : ℚ) 0).2 "" = _
    rw [h1]
  · obtain ⟨a, b, hab, hlen⟩ := toFixed2_shape (formatLoop (n : ℚ) 0).1
    refine ⟨a, b, ?_, hlen⟩
    show toFixed2 (formatLoop (n : ℚ) 0).1 ++ " " ++ units.getD (formatLoop (n : ℚ) 0).2 "" = _
    rw [hab]

/-- Witness for C7's conditional parts, at `n = 1536`: the loop stops at a
positive unit index and the value scaled one unit down is at least 1024. -/
theorem C7_formatFileSize_witness :
    0 < (formatLoop ((1536 : ℕ) : ℚ) 0).2
    ∧ 1024 ≤ ((1536 : ℕ) : ℚ) / 1024 ^ ((formatLoop ((1536 : ℕ) : ℚ) 0).2 - 1) := by
  have hcast : ((1536 : ℕ) : ℚ) = 1536 := by norm_num
  have h2 : (formatLoop ((1536 : ℕ) : ℚ) 0).2 = 1 := by rw [hcast, formatLoop_1536]
  refine ⟨by rw [h2]; norm_num, ?_⟩
  exact (C7_formatFileSize.1 1536).2.2.2.1 (by rw [h2]; norm_num)

/-- A field characterisation of the fast-path test. -/
theorem isEmptyArray_iff (e : StrOrList) : isEmptyArray e = true ↔ e = .list [] := by
  cases e <;> simp [isEmptyArray]

/-- The fast-path condition in terms of the three resolved fields. -/
theorem takesFastPath_iff (opts : ResolvedOptions) :
    takesFastPath opts = true ↔
      opts.include_ = .str "dist/**/*" ∧ opts.exclude = .list [] ∧ opts.handleFile = none := by
  simp [takesFastPath, Bool.and_eq_true, beq_iff_eq, isEmptyArray_iff,
    Option.isNone_iff_eq_none, and_assoc]

/-- A nonempty list is its `dropLast` plus its last element. -/
theorem dropLast_append_getLastD : ∀ (l : List String) (d : String), l ≠ [] →
    l.dropLast ++ [l.getLastD d] = l
  | [], _, h => absurd rfl h
  | [_], _, _ => by simp
  | a :: b :: t, _, _ => by
    have ih := dropLast_append_getLastD (b :: t) a (by simp)
    simp only [List.getLastD_cons] at ih ⊢
    simp only [List.dropLast_cons₂, List.cons_append]
    rw [ih]

/-- A list is a prefix of itself followed by anything. -/
theorem isPrefixOf_append_self (l₁ l₂ : List String) : l₁.isPrefixOf (l₁ ++ l₂) = true := by
  induction l₁ with
  | nil => simp [List.isPrefixOf]
  | cons a t ih => simp [List.isPrefixOf, ih]

/-- What membership in the glob result provides: the originating
filesystem node and its selection facts. -/
theorem globSync_mem {inc : StrOrList} {cwd : Path} {excl : List String} {fs : FileSystem}
    {d : Dirent} (hd : d ∈ globSync inc cwd excl fs) :
    ∃ f ∈ fs, f.path ≠ [] ∧ d.isFile = f.isFile ∧ direntPath d = f.path
      ∧ cwd.isPrefixOf f.path = true
      ∧ matchesAny (includePatterns inc) (f.path.drop cwd.length) = true
      ∧ matchesAny excl (f.path.drop cwd.length) = false := by
  simp only [globSync, List.mem_map, List.mem_filter] at hd
  obtain ⟨f, ⟨hf, hcond⟩, rfl⟩ := hd
  simp only [Bool.and_eq_true, Bool.not_eq_true'] at hcond
  obtain ⟨⟨⟨hne, hpre⟩, hinc⟩, hexc⟩ := hcond
  have hne2 : f.path ≠ [] := by
    intro h
    rw [h] at hne
    simp at hne
  exact ⟨f, hf, hne2, rfl, dropLast_append_getLastD f.path "" hne2, hpre, hinc, hexc⟩

/-- The dirent of a filesystem node selected by the glob is in its
result. -/
theorem globSync_mem_of {inc : StrOrList} {cwd : Path} {excl : List String} {fs : FileSystem}
    (f : FSFile) (hf : f ∈ fs) (hne : f.path ≠ [])
    (hpre : cwd.isPrefixOf f.path = true)
    (hinc : matchesAny (includePatterns inc) (f.path.drop cwd.length) = true)
    (hexc : matchesAny excl (f.path.drop cwd.length) = false) :
    (⟨f.path.getLastD "", f.path.dropLast, f.isFile⟩ : Dirent) ∈ globSync inc cwd excl fs := by
  simp only [globSync, List.mem_map]
  refine ⟨f, List.mem_filter.mpr ⟨hf, ?_⟩, rfl⟩
  simp [hpre, hinc, hexc, List.isEmpty_iff, hne]

/-- The fast-path trace shape. -/
theorem zipOutput_fast {opts : ResolvedOptions} {cfg : ViteConfig} {fs : FileSystem}
    (h : takesFastPath opts = true) :
    zipOutput opts cfg fs =
      [Event.openStream (cfg.root ++ cfg.outDir ++ [opts.zipName]),
        .action (.directory (cfg.root ++ cfg.outDir) "dist"), .callBeforeClose]
        ++ opts.beforeClose.map .action ++ [.finalize] := by
  simp [zipOutput, h]

/-- The general-path trace shape. -/
theorem zipOutput_general {opts : ResolvedOptions} {cfg : ViteConfig} {fs : FileSystem}
    (h : takesFastPath opts = false) :
    zipOutput opts cfg fs =
      [Event.openStream (cfg.root ++ cfg.outDir ++ [opts.zipName]), .globEnumerate]
        ++ (globSync opts.include_ cfg.root (excludeArrOf opts.exclude)
            (createFile fs (cfg.root ++ cfg.outDir ++ [opts.zipName]))).flatMap
            (processEntry opts cfg.root)
        ++ [.callBeforeClose] ++ opts.beforeClose.map .action ++ [.finalize] := by
  simp [zipOutput, h]

/-- Function `archiveEntries` distributes over trace concatenation. -/
theorem archiveEntries_append (fs : FileSystem) (t1 t2 : List Event) :
    archiveEntries fs (t1 ++ t2) = archiveEntries fs t1 ++ archiveEntries fs t2 := by
  simp [archiveEntries]

/-- C5: a build-completion signal carrying an error makes the handler
return immediately: no event happens at all — no stream is opened, no
archive entry is produced — while an error-free signal runs the
assembly. -/
theorem C5_error_skips_assembly (opts : ResolvedOptions) (cfg : ViteConfig)
    (fs : FileSystem) (e : String) :
    closeBundleHandler opts cfg fs (some e) = []
    ∧ (∀ p, Event.openStream p ∉ closeBundleHandler opts cfg fs (some e))
    ∧ archiveEntries fs (closeBundleHandler opts cfg fs (some e)) = []
    ∧ closeBundleHandler opts cfg fs none = zipOutput opts cfg fs :=
  ⟨rfl, by simp [closeBundleHandler], rfl, rfl⟩

/-- Witness for C5 at a concrete configuration and error. -/
theorem C5_error_skips_assembly_witness :
    Event.openStream ["root", "dist", "dist.zip"]
      ∉ closeBundleHandler defaultOptions sampleCfg sampleFS (some "build failed") :=
  (C5_error_skips_assembly defaultOptions sampleCfg sampleFS "build failed").2.1 _

/-- C6: during assembly an archive-engine warning is logged and the run
continues exactly when it is classified ENOENT (file not found); every
other warning and every error rejects the run's deferred result. -/
theorem C6_warning_classification :
    (∀ n : ArchiveNote, onArchiveNote n = .logAndContinue ↔ n = .warning "ENOENT")
    ∧ (∀ code, code ≠ "ENOENT" → onArchiveNote (.warning code) = .rejectPromise)
    ∧ (∀ code, onArchiveNote (.error code) = .rejectPromise) := by
  refine ⟨fun n => ?_, fun code h => by simp [onArchiveNote, h], fun code => rfl⟩
  cases n with
  | warning code =>
    simp only [onArchiveNote]
    by_cases h : code = "ENOENT"
    · simp [h]
    · simp [h]
  | error code => simp [onArchiveNote]

/-- Witness for C6: the two classifications at concrete codes. -/
theorem C6_warning_classification_witness :
    onArchiveNote (.warning "ENOENT") = .logAndContinue
    ∧ onArchiveNote (.warning "EPERM") = .rejectPromise :=
  ⟨(C6_warning_classification.1 _).mpr rfl,
    C6_warning_classification.2.1 "EPERM" (by decide)⟩

/-- C2: the assembly takes the fast path — no glob enumeration, the whole
output directory added as a single recursive directory entry rooted at
"dist" — exactly when `include` equals the default pattern, `exclude` is
the empty list, and no `handleFile` hook is configured; otherwise the
enumeration path runs. -/
theorem C2_fastpath_iff (opts : ResolvedOptions) (cfg : ViteConfig) (fs : FileSystem) :
    (Event.globEnumerate ∉ zipOutput opts cfg fs
      ↔ opts.include_ = .str "dist/**/*" ∧ opts.exclude = .list [] ∧ opts.handleFile = none)
    ∧ ((opts.include_ = .str "dist/**/*" ∧ opts.exclude = .list [] ∧ opts.handleFile = none) →
        Event.action (.directory (cfg.root ++ cfg.outDir) "dist") ∈ zipOutput opts cfg fs) := by
  rw [← takesFastPath_iff]
  by_cases h : takesFastPath opts = true
  · rw [zipOutput_fast h]
    refine ⟨⟨fun _ => h, fun _ => by simp⟩, fun _ => by simp⟩
  · have h' : takesFastPath opts = false := by simpa using h
    rw [zipOutput_general h']
    constructor
    · simp [h']
    · intro hEq
      rw [hEq] at h'
      exact Bool.noConfusion h'

/-- Witness for C2 with the default options: the fast path is taken and
the single recursive directory entry is in the trace. -/
theorem C2_fastpath_iff_witness :
    Event.globEnumerate ∉ zipOutput defaultOptions sampleCfg sampleFS
    ∧ Event.action (.directory (["root"] ++ ["dist"]) "dist")
        ∈ zipOutput defaultOptions sampleCfg sampleFS :=
  ⟨(C2_fastpath_iff defaultOptions sampleCfg sampleFS).1.mpr ⟨rfl, rfl, rfl⟩,
    (C2_fastpath_iff defaultOptions sampleCfg sampleFS).2 ⟨rfl, rfl, rfl⟩⟩

/-- On the fast path, every plain file strictly below the output
directory — other than the destination archive itself, which the stream
opening truncates — ends up in the archive under `dist/` plus its path
relative to the output directory. -/
theorem fastPath_file_mem {opts : ResolvedOptions} {cfg : ViteConfig} {fs : FileSystem}
    (h : takesFastPath opts = true) (f : FSFile) (hf : f ∈ fs) (hfile : f.isFile = true)
    (hpre : (cfg.root ++ cfg.outDir).isPrefixOf f.path = true)
    (hlen : (cfg.root ++ cfg.outDir).length < f.path.length)
    (hne : f.path ≠ cfg.root ++ cfg.outDir ++ [opts.zipName]) :
    ("dist" :: f.path.drop (cfg.root ++ cfg.outDir).length, f.content)
      ∈ finalArchive opts cfg fs := by
  have hfsOpen : f ∈ createFile fs (cfg.root ++ cfg.outDir ++ [opts.zipName]) :=
    List.mem_append_left _ (List.mem_filter.mpr ⟨hf, by
      simp only [List.append_assoc] at hne
      simp [hne]⟩)
  have hunder : f ∈ filesUnder (createFile fs (cfg.root ++ cfg.outDir ++ [opts.zipName]))
      (cfg.root ++ cfg.outDir) :=
    List.mem_filter.mpr ⟨hfsOpen, by
      simp only [List.length_append] at hlen
      simp [hfile, hpre, hlen]⟩
  unfold finalArchive archiveEntries
  rw [zipOutput_fast h]
  refine List.mem_flatMap.mpr
    ⟨Event.action (.directory (cfg.root ++ cfg.outDir) "dist"), by simp, ?_⟩
  simpa [entriesOfAction] using
    List.mem_map_of_mem
      (fun g => ("dist" :: g.path.drop (cfg.root ++ cfg.outDir).length, g.content)) hunder

/-- C10: on the fast path the recursive directory entry is rooted at the
literal name "dist" whatever the output directory is called, and every
output file appears in the archive nested under `dist/`. -/
theorem C10_fastpath_dist_root (opts : ResolvedOptions) (cfg : ViteConfig) (fs : FileSystem)
    (h : takesFastPath opts = true) :
    Event.action (.directory (cfg.root ++ cfg.outDir) "dist") ∈ zipOutput opts cfg fs
    ∧ ∀ f ∈ fs, f.isFile = true → (cfg.root ++ cfg.outDir).isPrefixOf f.path = true →
        (cfg.root ++ cfg.outDir).length < f.path.length →
        f.path ≠ cfg.root ++ cfg.outDir ++ [opts.zipName] →
        ("dist" :: f.path.drop (cfg.root ++ cfg.outDir).length, f.content)
          ∈ finalArchive opts cfg fs :=
  ⟨by rw [zipOutput_fast h]; simp,
    fun f hf h1 h2 h3 h4 => fastPath_file_mem h f hf h1 h2 h3 h4⟩

/-- Witness for C10 at an output directory named `build`: the file still
lands under `dist/` in the archive. -/
theorem C10_fastpath_dist_root_witness :
    takesFastPath defaultOptions = true
    ∧ (["dist", "app.js"], "console") ∈ finalArchive defaultOptions cfgBuild fsBuild := by
  refine ⟨rfl, ?_⟩
  have h := (C10_fastpath_dist_root defaultOptions cfgBuild fsBuild rfl).2
    ⟨["root", "build", "app.js"], true, "console"⟩ (by decide) rfl (by decide) (by decide)
    (by decide)
  simpa using h

/-- C1 (amended): the default invocation opens the archive `dist.zip`
inside the output directory and, via the fast path, archives every file
originally present in the output directory (a pre-existing `dist.zip` is
overwritten) under the fixed top-level name `dist/` plus the path
relative to the output directory; root-relative paths — and the default
include pattern's selection of the output tree — are recovered only when
the output directory is itself named `dist`. -/
theorem C1_default_invocation (root outDir : Path) (fs : FileSystem) :
    defaultOptions.zipName = "dist.zip"
    ∧ (closeBundleHandler defaultOptions ⟨root, outDir⟩ fs none).head?
        = some (.openStream (root ++ outDir ++ ["dist.zip"]))
    ∧ ∀ f ∈ fs, f.isFile = true → (root ++ outDir).isPrefixOf f.path = true →
        (root ++ outDir).length < f.path.length →
        f.path ≠ root ++ outDir ++ ["dist.zip"] →
        ("dist" :: f.path.drop (root ++ outDir).length, f.content)
          ∈ finalArchive defaultOptions ⟨root, outDir⟩ fs := by
  have hfast : takesFastPath defaultOptions = true := rfl
  refine ⟨rfl, ?_, fun f hf h1 h2 h3 h4 => fastPath_file_mem hfast f hf h1 h2 h3 h4⟩
  show (zipOutput defaultOptions ⟨root, outDir⟩ fs).head? = _
  rw [zipOutput_fast hfast]
  rfl

/-- Witness for C1's amended statement at a concrete build context. -/
theorem C1_default_invocation_witness :
    (["dist", "index.html"], "<html></html>")
      ∈ finalArchive defaultOptions ⟨["root"], ["dist"]⟩ sampleFS := by
  have h := (C1_default_invocation ["root"] ["dist"] sampleFS).2.2
    ⟨["root", "dist", "index.html"], true, "<html></html>"⟩ (by decide) rfl (by decide)
    (by decide) (by decide)
  simpa using h

/-- Counterexample to C1 as stated: with an output directory named
`build`, the default include pattern selects nothing under the output
directory, and the archived entry for `build/app.js` is `dist/app.js` —
its path is not preserved — even though assembly did run. -/
theorem C1_counterexample :
    globMatch "dist/**/*" ["build", "app.js"] = false
    ∧ closeBundleHandler defaultOptions cfgBuild fsBuild none ≠ []
    ∧ (∀ e ∈ finalArchive defaultOptions cfgBuild fsBuild, e.1 ≠ ["build", "app.js"])
    ∧ (["dist", "app.js"], "console") ∈ finalArchive defaultOptions cfgBuild fsBuild := by
  decide

/-- C3: on the general path, for one enumerated file entry: when a
configured `handleFile` hook returns `true`, every insertion call in the
entry's processing came from the hook (no default insertion occurs); when
the hook is absent the processing is exactly the default insertion of the
file under its root-relative path; when the hook returns `false` the
default insertion still occurs after the hook's own calls. -/
theorem C3_handleFile_contract (opts : ResolvedOptions) (cwd : Path) (d : Dirent)
    (hd : d.isFile = true) :
    (∀ hf, opts.handleFile = some hf → (hf d).2 = true →
      ∀ a, Event.action a ∈ processEntry opts cwd d → a ∈ (hf d).1)
    ∧ (opts.handleFile = none →
        processEntry opts cwd d
          = [.action (.file (direntPath d) ((direntPath d).drop cwd.length))])
    ∧ (∀ hf, opts.handleFile = some hf → (hf d).2 = false →
        Event.action (.file (direntPath d) ((direntPath d).drop cwd.length))
          ∈ processEntry opts cwd d) := by
  refine ⟨fun hf heq htrue a hmem => ?_, fun heq => by simp [processEntry, hd, heq],
    fun hf heq hfalse => by simp [processEntry, hd, heq, hfalse]⟩
  simp only [processEntry, hd, Bool.not_true, Bool.false_eq_true, if_false, heq, htrue,
    if_true, List.append_nil] at hmem
  rcases List.mem_cons.mp hmem with hc | hc
  · exact absurd hc (by simp)
  · obtain ⟨b, hb, hb2⟩ := List.mem_map.mp hc
    obtain rfl : b = a := by simpa using hb2
    exact hb

/-- Witness for C3: with no hook configured, processing a concrete dirent
is exactly the default insertion under the root-relative path. -/
theorem C3_handleFile_contract_witness :
    processEntry defaultOptions ["root"] ⟨"app.js", ["root", "dist"], true⟩
      = [.action (.file ["root", "dist", "app.js"] ["dist", "app.js"])] := by
  have h := (C3_handleFile_contract defaultOptions ["root"]
    ⟨"app.js", ["root", "dist"], true⟩ rfl).2.1 rfl
  simpa [direntPath] using h

/-- Events produced by the per-entry loop body are only hook calls and
insertion calls. -/
theorem processEntry_events {opts : ResolvedOptions} {cwd : Path} {d : Dirent} {e : Event}
    (he : e ∈ processEntry opts cwd d) :
    e ≠ Event.callBeforeClose ∧ e ≠ Event.finalize ∧ e ≠ Event.globEnumerate := by
  unfold processEntry at he
  cases hd : d.isFile with
  | false => rw [hd] at he; simp at he
  | true =>
    rw [hd] at he
    cases hopt : opts.handleFile with
    | none =>
      rw [hopt] at he
      simp only [Bool.not_true, Bool.false_eq_true, if_false, List.mem_singleton] at he
      subst he
      exact ⟨by simp, by simp, by simp⟩
    | some hf =>
      rw [hopt] at he
      simp only [Bool.not_true, Bool.false_eq_true, if_false] at he
      rcases List.mem_cons.mp he with rfl | he2
      · exact ⟨by simp, by simp, by simp⟩
      rcases List.mem_append.mp he2 with he3 | he4
      · obtain ⟨a, _, rfl⟩ := List.mem_map.mp he3
        exact ⟨by simp, by simp, by simp⟩
      · by_cases hb : (hf d).2 = true
        · simp [hb] at he4
        · simp only [hb, if_false, Bool.false_eq_true, List.mem_singleton] at he4
          subst he4
          exact ⟨by simp, by simp, by simp⟩

/-- Counting: a list equal to `pre ++ x :: rest` with `x` in neither part
contains `x` exactly once. -/
theorem count_one_split {α : Type} [DecidableEq α] {l pre rest : List α} {x : α}
    (hEq : l = pre ++ x :: rest) (h1 : x ∉ pre) (h2 : x ∉ rest) : l.count x = 1 := by
  subst hEq
  rw [List.count_append, List.count_cons_self, List.count_eq_zero.mpr h1,
    List.count_eq_zero.mpr h2]

/-- Entries appended by the `beforeClose` hook land in the final archive
with their literal content, on either path. -/
theorem beforeClose_entry_mem {opts : ResolvedOptions} {cfg : ViteConfig} {fs : FileSystem}
    (content : String) (name : Path)
    (hmem : ArchiveAction.append content name ∈ opts.beforeClose) :
    (name, content) ∈ finalArchive opts cfg fs := by
  unfold finalArchive archiveEntries
  refine List.mem_flatMap.mpr
    ⟨Event.action (.append content name), ?_, by simp [entriesOfAction]⟩
  by_cases h : takesFastPath opts = true
  · rw [zipOutput_fast h]
    simp only [List.mem_append, List.mem_cons, List.mem_map]
    exact Or.inl (Or.inr ⟨_, hmem, rfl⟩)
  · rw [zipOutput_general (by simpa using h)]
    simp only [List.mem_append, List.mem_cons, List.mem_map]
    exact Or.inl (Or.inr ⟨_, hmem, rfl⟩)

/-- C8: in every run the `beforeClose` hook is called exactly once, after
all per-file processing and before `finalize` (which is never emitted
before the hook call); entries the hook appends appear in the final
archive with their literal content. -/
theorem C8_beforeClose_once (opts : ResolvedOptions) (cfg : ViteConfig) (fs : FileSystem) :
    ∃ pre, zipOutput opts cfg fs
        = pre ++ Event.callBeforeClose :: (opts.beforeClose.map .action ++ [.finalize])
      ∧ Event.callBeforeClose ∉ pre
      ∧ Event.finalize ∉ pre
      ∧ (zipOutput opts cfg fs).count .callBeforeClose = 1
      ∧ ∀ content name, ArchiveAction.append content name ∈ opts.beforeClose →
          (name, content) ∈ finalArchive opts cfg fs := by
  by_cases h : takesFastPath opts = true
  · have hEq : zipOutput opts cfg fs
        = [Event.openStream (cfg.root ++ cfg.outDir ++ [opts.zipName]),
            .action (.directory (cfg.root ++ cfg.outDir) "dist")]
          ++ Event.callBeforeClose :: (opts.beforeClose.map .action ++ [.finalize]) := by
      rw [zipOutput_fast h]
      simp
    exact ⟨_, hEq, by simp, by simp, count_one_split hEq (by simp) (by simp),
      fun c n hm => beforeClose_entry_mem c n hm⟩
  · have h' : takesFastPath opts = false := by simpa using h
    have hEq : zipOutput opts cfg fs
        = ([Event.openStream (cfg.root ++ cfg.outDir ++ [opts.zipName]), .globEnumerate]
            ++ (globSync opts.include_ cfg.root (excludeArrOf opts.exclude)
                (createFile fs (cfg.root ++ cfg.outDir ++ [opts.zipName]))).flatMap
                (processEntry opts cfg.root))
          ++ Event.callBeforeClose :: (opts.beforeClose.map .action ++ [.finalize]) := by
      rw [zipOutput_general h']
      simp
    have hpre1 : Event.callBeforeClose
        ∉ ([Event.openStream (cfg.root ++ cfg.outDir ++ [opts.zipName]), .globEnumerate]
            ++ (globSync opts.include_ cfg.root (excludeArrOf opts.exclude)
                (createFile fs (cfg.root ++ cfg.outDir ++ [opts.zipName]))).flatMap
                (processEntry opts cfg.root)) := by
      intro hc
      rcases List.mem_append.mp hc with hc | hc
      · simp at hc
      · obtain ⟨d2, _, hpe⟩ := List.mem_flatMap.mp hc
        exact (processEntry_events hpe).1 rfl
    have hpre2 : Event.finalize
        ∉ ([Event.openStream (cfg.root ++ cfg.outDir ++ [opts.zipName]), .globEnumerate]
            ++ (globSync opts.include_ cfg.root (excludeArrOf opts.exclude)
                (createFile fs (cfg.root ++ cfg.outDir ++ [opts.zipName]))).flatMap
                (processEntry opts cfg.root)) := by
      intro hc
      rcases List.mem_append.mp hc with hc | hc
      · simp at hc
      · obtain ⟨d2, _, hpe⟩ := List.mem_flatMap.mp hc
        exact (processEntry_events hpe).2.1 rfl
    exact ⟨_, hEq, hpre1, hpre2, count_one_split hEq hpre1 (by simp),
      fun c n hm => beforeClose_entry_mem c n hm⟩

/-- Witness for C8: a synthetic entry appended by a concrete `beforeClose`
hook is in the final archive with its content intact. -/
theorem C8_beforeClose_once_witness :
    (["custom-file.txt"], "Custom content")
      ∈ finalArchive
        { defaultOptions with beforeClose := [.append "Custom content" ["custom-file.txt"]] }
        sampleCfg sampleFS := by
  obtain ⟨pre, _, _, _, _, h⟩ := C8_beforeClose_once
    { defaultOptions with beforeClose := [.append "Custom content" ["custom-file.txt"]] }
    sampleCfg sampleFS
  exact h "Custom content" ["custom-file.txt"] (by simp)

/-- Opening the destination stream leaves exactly one node at the
destination path: an empty plain file, and `archive.file` reads it. -/
theorem findFile_createFile (fs : FileSystem) (p : Path) :
    findFile (createFile fs p) p = some ⟨p, true, ""⟩ := by
  unfold findFile createFile
  rw [List.find?_append]
  have h1 : (fs.filter (fun f => f.path ≠ p)).find? (fun f => f.path == p && f.isFile)
      = none := by
    rw [List.find?_eq_none]
    intro x hx
    have hxp := (List.mem_filter.mp hx).2
    simp only [decide_eq_true_eq] at hxp
    simp [hxp]
  rw [h1]
  simp

/-- On the general path, a selected plain file whose configured
`handleFile` hook (if any) does not claim its dirent as handled gives
rise to its default insertion call in the trace. -/
theorem general_default_mem {opts : ResolvedOptions} {cfg : ViteConfig} {fs : FileSystem}
    (hfp : takesFastPath opts = false) (f : FSFile)
    (hhandler : opts.handleFile = none
      ∨ ∃ hfn, opts.handleFile = some hfn
          ∧ (hfn ⟨f.path.getLastD "", f.path.dropLast, true⟩).2 = false)
    (hf : f ∈ createFile fs (cfg.root ++ cfg.outDir ++ [opts.zipName]))
    (hne : f.path ≠ []) (hfile : f.isFile = true)
    (hpre : cfg.root.isPrefixOf f.path = true)
    (hinc : matchesAny (includePatterns opts.include_) (f.path.drop cfg.root.length) = true)
    (hexc : matchesAny (excludeArrOf opts.exclude) (f.path.drop cfg.root.length) = false) :
    Event.action (.file f.path (f.path.drop cfg.root.length)) ∈ zipOutput opts cfg fs := by
  rw [zipOutput_general hfp]
  have hdp : direntPath ⟨f.path.getLastD "", f.path.dropLast, true⟩ = f.path :=
    dropLast_append_getLastD f.path "" hne
  have hFM : Event.action (.file f.path (f.path.drop cfg.root.length))
      ∈ (globSync opts.include_ cfg.root (excludeArrOf opts.exclude)
          (createFile fs (cfg.root ++ cfg.outDir ++ [opts.zipName]))).flatMap
          (processEntry opts cfg.root) :=
    List.mem_flatMap.mpr ⟨⟨f.path.getLastD "", f.path.dropLast, f.isFile⟩,
      globSync_mem_of f hf hne hpre hinc hexc, by
        unfold processEntry
        rcases hhandler with hnone | ⟨hfn, hsome, hfalse⟩
        · simp only [hfile, hnone, Bool.not_true, Bool.false_eq_true, if_false,
            List.mem_singleton]
          rw [hdp]
        · simp only [hfile, hsome, hfalse, Bool.not_true, Bool.false_eq_true, if_false,
            List.mem_cons, List.mem_append, List.mem_map, List.mem_singleton]
          rw [hdp]
          simp⟩
  simp only [List.mem_append]
  exact Or.inl (Or.inl (Or.inl (Or.inr hFM)))

/-- An entry produced by an `archive.file` insertion call carries the
call's entry name. -/
theorem entriesOfAction_file_name {fsx : FileSystem} {src name rel : Path} {c : String}
    (h : (rel, c) ∈ entriesOfAction fsx (.file src name)) : rel = name := by
  simp only [entriesOfAction] at h
  cases hff : findFile fsx src with
  | none => rw [hff] at h; simp at h
  | some g =>
    rw [hff] at h
    simp only [List.mem_singleton, Prod.mk.injEq] at h
    exact h.1

/-- On the general path, every archive entry stems from a `beforeClose`
insertion call, a `handleFile` insertion call for some enumerated dirent,
or the default insertion of an enumerated plain-file dirent, named by its
root-relative path. -/
theorem finalArchive_general_cases {opts : ResolvedOptions} {cfg : ViteConfig}
    {fs : FileSystem} (hfp : takesFastPath opts = false)
    {rel : Path} {c : String} (hmem : (rel, c) ∈ finalArchive opts cfg fs) :
    (∃ a ∈ opts.beforeClose,
      (rel, c) ∈ entriesOfAction
        (createFile fs (cfg.root ++ cfg.outDir ++ [opts.zipName])) a)
    ∨ (∃ hf, opts.handleFile = some hf
        ∧ ∃ d ∈ globSync opts.include_ cfg.root (excludeArrOf opts.exclude)
            (createFile fs (cfg.root ++ cfg.outDir ++ [opts.zipName])),
          ∃ a ∈ (hf d).1,
            (rel, c) ∈ entriesOfAction
              (createFile fs (cfg.root ++ cfg.outDir ++ [opts.zipName])) a)
    ∨ (∃ d ∈ globSync opts.include_ cfg.root (excludeArrOf opts.exclude)
          (createFile fs (cfg.root ++ cfg.outDir ++ [opts.zipName])),
        d.isFile = true ∧ rel = (direntPath d).drop cfg.root.length) := by
  unfold finalArchive archiveEntries at hmem
  rw [zipOutput_general hfp] at hmem
  obtain ⟨e, heMem, heEntry⟩ := List.mem_flatMap.mp hmem
  simp only [List.mem_append, List.mem_cons, List.mem_singleton, List.mem_map,
    List.not_mem_nil, or_false, false_or] at heMem
  rcases heMem with ((((heMem | heMem) | heMem) | heMem) | heMem) | heMem
  · subst heMem; simp at heEntry
  · subst heMem; simp at heEntry
  · -- per-entry loop events
    obtain ⟨d, hdMem, hpe⟩ := List.mem_flatMap.mp heMem
    unfold processEntry at hpe
    cases hdf : d.isFile with
    | false => rw [hdf] at hpe; simp at hpe
    | true =>
      rw [hdf] at hpe
      cases hopt : opts.handleFile with
      | none =>
        rw [hopt] at hpe
        simp only [Bool.not_true, Bool.false_eq_true, if_false, List.mem_singleton] at hpe
        subst hpe
        have heEntry2 : (rel, c) ∈ entriesOfAction
            (createFile fs (cfg.root ++ cfg.outDir ++ [opts.zipName]))
            (ArchiveAction.file (direntPath d) ((direntPath d).drop cfg.root.length)) :=
          heEntry
        exact Or.inr (Or.inr ⟨d, hdMem, hdf, entriesOfAction_file_name heEntry2⟩)
      | some hf =>
        rw [hopt] at hpe
        simp only [Bool.not_true, Bool.false_eq_true, if_false] at hpe
        rcases List.mem_cons.mp hpe with rfl | hpe2
        · simp at heEntry
        rcases List.mem_append.mp hpe2 with hpe3 | hpe4
        · obtain ⟨a, ha, rfl⟩ := List.mem_map.mp hpe3
          have heEntry2 : (rel, c) ∈ entriesOfAction
              (createFile fs (cfg.root ++ cfg.outDir ++ [opts.zipName])) a := heEntry
          exact Or.inr (Or.inl ⟨hf, rfl, d, hdMem, a, ha, heEntry2⟩)
        · by_cases hb : (hf d).2 = true
          · simp [hb] at hpe4
          · simp only [hb, if_false, Bool.false_eq_true, List.mem_singleton] at hpe4
            subst hpe4
            have heEntry2 : (rel, c) ∈ entriesOfAction
                (createFile fs (cfg.root ++ cfg.outDir ++ [opts.zipName]))
                (ArchiveAction.file (direntPath d) ((direntPath d).drop cfg.root.length)) :=
              heEntry
            exact Or.inr (Or.inr ⟨d, hdMem, hdf, entriesOfAction_file_name heEntry2⟩)
  · subst heMem; simp at heEntry
  · -- beforeClose insertion calls
    obtain ⟨a, ha, rfl⟩ := heMem
    have heEntry2 : (rel, c) ∈ entriesOfAction
        (createFile fs (cfg.root ++ cfg.outDir ++ [opts.zipName])) a := heEntry
    exact Or.inl ⟨a, ha, heEntry2⟩
  · subst heMem; simp at heEntry

/-- C4 (amended): a candidate matching any exclude pattern is removed
from the enumerated candidate set — so, provided no configured hook
(`handleFile` on an enumerated dirent, or `beforeClose`) inserts an
entry for it, nothing in the archive carries an excluded relative path;
exclude patterns combine with OR semantics, and a single-string exclude
behaves exactly like the one-element list. -/
theorem C4_exclude_precedence (opts : ResolvedOptions) (cfg : ViteConfig) (fs : FileSystem) :
    (∀ d ∈ globSync opts.include_ cfg.root (excludeArrOf opts.exclude)
        (createFile fs (cfg.root ++ cfg.outDir ++ [opts.zipName])),
      matchesAny (excludeArrOf opts.exclude) ((direntPath d).drop cfg.root.length) = false)
    ∧ (∀ rel, matchesAny (excludeArrOf opts.exclude) rel = true →
        (∀ a ∈ opts.beforeClose, ∀ c,
          (rel, c) ∉ entriesOfAction
            (createFile fs (cfg.root ++ cfg.outDir ++ [opts.zipName])) a) →
        (∀ hf, opts.handleFile = some hf →
          ∀ d ∈ globSync opts.include_ cfg.root (excludeArrOf opts.exclude)
              (createFile fs (cfg.root ++ cfg.outDir ++ [opts.zipName])),
            ∀ a ∈ (hf d).1, ∀ c,
              (rel, c) ∉ entriesOfAction
                (createFile fs (cfg.root ++ cfg.outDir ++ [opts.zipName])) a) →
        ∀ c, (rel, c) ∉ finalArchive opts cfg fs)
    ∧ (∀ pats rel e, e ∈ pats → globMatch e rel = true → matchesAny pats rel = true)
    ∧ (∀ inc cwd fs2 s, globSync inc cwd (excludeArrOf (.str s)) fs2
        = globSync inc cwd (excludeArrOf (.list [s])) fs2) := by
  refine ⟨fun d hd => ?_, fun rel hmatch hbcH hhfH c hmem => ?_,
    fun pats rel e he hm => ?_, fun inc cwd fs2 s => rfl⟩
  · obtain ⟨f, _, _, _, hpath, _, _, hexc⟩ := globSync_mem hd
    rw [hpath]
    exact hexc
  · have hfp : takesFastPath opts = false := by
      rcases hx : takesFastPath opts with _ | _
      · rfl
      · obtain ⟨_, hexc, _⟩ := (takesFastPath_iff opts).mp hx
        rw [hexc] at hmatch
        simp [excludeArrOf, matchesAny] at hmatch
    rcases finalArchive_general_cases hfp hmem with
      ⟨a, ha, hent⟩ | ⟨hf2, hhf2, d, hd, a, ha, hent⟩ | ⟨d, hd, _, hrel⟩
    · exact hbcH a ha c hent
    · exact hhfH hf2 hhf2 d hd a ha c hent
    · obtain ⟨f, _, _, _, hpath, _, _, hexc⟩ := globSync_mem hd
      rw [hrel, hpath] at hmatch
      rw [hmatch] at hexc
      exact Bool.noConfusion hexc
  · simp only [matchesAny, List.any_eq_true]
    exact ⟨e, he, hm⟩

/-- Counterexample to C4 as stated: `dist/logo.svg` matches both the
include and the exclude pattern, yet a configured `beforeClose` hook puts
it into the archive — exclusion only removes candidates from the default
enumeration, it does not keep hooks from inserting the file. -/
theorem C4_counterexample :
    matchesAny (excludeArrOf optsExclHook.exclude) ["dist", "logo.svg"] = true
    ∧ matchesAny (includePatterns optsExclHook.include_) ["dist", "logo.svg"] = true
    ∧ (["dist", "logo.svg"], "<svg>") ∈ finalArchive optsExclHook sampleCfg fsExcl := by
  decide

/-- Witness for C4's amended statement: with an exclude pattern and a
configured `beforeClose` hook that inserts only an unrelated entry, no
entry under the excluded relative path is in the archive. -/
theorem C4_exclude_precedence_witness :
    ∀ c, (["dist", "logo.svg"], c) ∉ finalArchive optsExclHook2 sampleCfg fsExcl := by
  intro c
  refine (C4_exclude_precedence optsExclHook2 sampleCfg fsExcl).2.1
    ["dist", "logo.svg"] (by decide) ?_ ?_ c
  · intro a ha c2 hm
    simp only [optsExclHook2, List.mem_singleton] at ha
    subst ha
    simp [entriesOfAction] at hm
  · intro hf hsome d hd a ha c2 hm
    simp [optsExclHook2] at hsome

/-- C9 (amended): the destination stream is opened first, before glob
enumeration; consequently on the general path, whenever the include
patterns match the archive's own root-relative path, the excludes do not,
and the configured `handleFile` hook (if any) does not claim the
archive's dirent as handled, the produced archive contains an entry
naming the archive file itself (with the empty content the freshly
truncated file has). -/
theorem C9_archive_contains_itself (opts : ResolvedOptions) (cfg : ViteConfig)
    (fs : FileSystem) :
    (zipOutput opts cfg fs).head?
        = some (.openStream (cfg.root ++ cfg.outDir ++ [opts.zipName]))
    ∧ (takesFastPath opts = false →
        (zipOutput opts cfg fs)[1]? = some Event.globEnumerate)
    ∧ (takesFastPath opts = false →
        (opts.handleFile = none
          ∨ ∃ hf, opts.handleFile = some hf
              ∧ (hf ⟨opts.zipName, cfg.root ++ cfg.outDir, true⟩).2 = false) →
        matchesAny (includePatterns opts.include_) (cfg.outDir ++ [opts.zipName]) = true →
        matchesAny (excludeArrOf opts.exclude) (cfg.outDir ++ [opts.zipName]) = false →
        (cfg.outDir ++ [opts.zipName], "") ∈ finalArchive opts cfg fs) := by
  refine ⟨?_, fun hfp => by rw [zipOutput_general hfp]; simp,
    fun hfp hhandler hinc hexc => ?_⟩
  · by_cases h : takesFastPath opts = true
    · rw [zipOutput_fast h]; rfl
    · rw [zipOutput_general (by simpa using h)]; rfl
  · have hfzip : (⟨cfg.root ++ cfg.outDir ++ [opts.zipName], true, ""⟩ : FSFile)
        ∈ createFile fs (cfg.root ++ cfg.outDir ++ [opts.zipName]) := by
      simp [createFile]
    have hne : cfg.root ++ cfg.outDir ++ [opts.zipName] ≠ [] := by simp
    have hpre : cfg.root.isPrefixOf (cfg.root ++ cfg.outDir ++ [opts.zipName]) = true := by
      rw [List.append_assoc]
      exact isPrefixOf_append_self _ _
    have hdrop : (cfg.root ++ cfg.outDir ++ [opts.zipName]).drop cfg.root.length
        = cfg.outDir ++ [opts.zipName] := by
      rw [List.append_assoc]
      exact List.drop_left _ _
    have hdirent : (⟨(cfg.root ++ cfg.outDir ++ [opts.zipName]).getLastD "",
        (cfg.root ++ cfg.outDir ++ [opts.zipName]).dropLast, true⟩ : Dirent)
        = ⟨opts.zipName, cfg.root ++ cfg.outDir, true⟩ := by
      simp [List.dropLast_concat]
    have hhandler2 : opts.handleFile = none
        ∨ ∃ hfn, opts.handleFile = some hfn
            ∧ (hfn ⟨(cfg.root ++ cfg.outDir ++ [opts.zipName]).getLastD "",
                (cfg.root ++ cfg.outDir ++ [opts.zipName]).dropLast, true⟩).2 = false := by
      rw [hdirent]
      exact hhandler
    have hmemEv := general_default_mem hfp
      ⟨cfg.root ++ cfg.outDir ++ [opts.zipName], true, ""⟩ hhandler2 hfzip hne rfl hpre
      (by rw [hdrop]; exact hinc) (by rw [hdrop]; exact hexc)
    unfold finalArchive archiveEntries
    refine List.mem_flatMap.mpr ⟨_, hmemEv, ?_⟩
    show (cfg.outDir ++ [opts.zipName], "")
      ∈ entriesOfAction (createFile fs (cfg.root ++ cfg.outDir ++ [opts.zipName]))
        (.file (cfg.root ++ cfg.outDir ++ [opts.zipName])
          ((cfg.root ++ cfg.outDir ++ [opts.zipName]).drop cfg.root.length))
    simp only [entriesOfAction, findFile_createFile]
    simp [hdrop]

/-- Witness for C9's amended statement: with a configured `handleFile`
hook that claims nothing as handled, the archive still contains its own
`dist.zip` as an (empty) entry. -/
theorem C9_archive_contains_itself_witness :
    (["dist", "dist.zip"], "") ∈ finalArchive optsHandleFalse sampleCfg sampleFS := by
  have h := (C9_archive_contains_itself optsHandleFalse sampleCfg sampleFS).2.2
    rfl (Or.inr ⟨_, rfl, rfl⟩) (by decide) (by decide)
  simpa using h

/-- Counterexample to C9 as stated: a `handleFile` hook that claims every
entry as handled keeps the archive's own path out of the archive even
though the include patterns match it and the excludes do not. -/
theorem C9_counterexample :
    takesFastPath optsHandleAll = false
    ∧ matchesAny (includePatterns optsHandleAll.include_) ["dist", "dist.zip"] = true
    ∧ matchesAny (excludeArrOf optsHandleAll.exclude) ["dist", "dist.zip"] = false
    ∧ finalArchive optsHandleAll sampleCfg sampleFS = [] := by
  decide

end VPZip
